import Mathlib

/-
Verification development for the blackbird-twst audio engine
(src/services/audioService.ts).

The TypeScript engine is shallowly embedded: JavaScript numbers become real
numbers, Float32Array buffers become lists of reals, stateful filter objects
become structures passed explicitly through the per-sample loops, and
imperative loops become structural recursions (with explicit fuel where the
source loop bound is not the recursion argument).
-/

namespace Birdsong

noncomputable section

/-- Engine sample-rate constant: `SAMPLE_RATE = 44100`. -/
def SAMPLE_RATE : ℕ := 44100

/-- Analysis window-size constant: `FFT_SIZE = 2048`. -/
def FFT_SIZE : ℕ := 2048

/-- Encode preset record (`EncodePreset` in the source). -/
structure EncodePreset where
  id : String
  presetName : String
  carrierBaseFreq : ℝ
  pitchMultiplier : ℝ
  inputLpfCutoff : ℝ
  description : String

/-- Decode preset record (`DecodePreset` in the source). -/
structure DecodePreset where
  id : String
  presetName : String
  lpfCutoff : ℝ
  filterStages : ℕ
  gainMultiplier : ℝ
  description : String

/-- First encode preset (`ENCODE_PRESETS[0]`). -/
def turdus : EncodePreset :=
  ⟨"turdus", "TURDUS (STD)", 4000, 16.0, 2500, "Standard Blackbird modulation."⟩

/-- Second encode preset (`ENCODE_PRESETS[1]`). -/
def erithacus : EncodePreset :=
  ⟨"erithacus", "ERITHACUS (HI)", 5500, 20.0, 3000, "High-pitch Robin variant. Clearer speech."⟩

/-- Third encode preset (`ENCODE_PRESETS[2]`). -/
def strix : EncodePreset :=
  ⟨"strix", "STRIX (LO)", 2000, 8.0, 1200, "Low-freq Owl rumble. High concealment."⟩

/-- The encode preset table `ENCODE_PRESETS`. -/
def ENCODE_PRESETS : List EncodePreset := [turdus, erithacus, strix]

/-- First decode preset (`DECODE_PRESETS[0]`). -/
def stdDecode : DecodePreset :=
  ⟨"std", "STANDARD", 2500, 3, 8.0, "Balanced recovery."⟩

/-- Second decode preset (`DECODE_PRESETS[1]`). -/
def wideDecode : DecodePreset :=
  ⟨"wide", "CLARITY (WIDE)", 3500, 2, 6.0, "More treble, some carrier bleed."⟩

/-- Third decode preset (`DECODE_PRESETS[2]`). -/
def narrowDecode : DecodePreset :=
  ⟨"narrow", "ISOLATION (NR)", 1500, 4, 12.0, "Aggressive filtering for noisy artifacts."⟩

/-- The decode preset table `DECODE_PRESETS`. -/
def DECODE_PRESETS : List DecodePreset := [stdDecode, wideDecode, narrowDecode]

/-- State and coefficients of the 2nd-order Butterworth low-pass filter
(class `LowPassFilter`): normalized coefficients `a0 a1 a2 b1 b2` and
IIR history `x1 x2 y1 y2`. -/
structure LowPassFilter where
  a0 : ℝ
  a1 : ℝ
  a2 : ℝ
  b1 : ℝ
  b2 : ℝ
  x1 : ℝ
  x2 : ℝ
  y1 : ℝ
  y2 : ℝ

/-- The `LowPassFilter` constructor: computes `omega`, `sn`, `cs`,
`alpha = sn / (2 * Math.SQRT2)`, the unnormalized coefficients, and divides
every coefficient by `a0_div = 1 + alpha`.  History starts at zero. -/
def mkLowPassFilter (cutoff sampleRate : ℝ) : LowPassFilter :=
  let omega := 2 * Real.pi * cutoff / sampleRate
  let sn := Real.sin omega
  let cs := Real.cos omega
  let alpha := sn / (2 * Real.sqrt 2)
  let b0 := (1 - cs) / 2
  let a0_div := 1 + alpha
  ⟨b0 / a0_div, (1 - cs) / a0_div, b0 / a0_div,
    (-2 * cs) / a0_div, (1 - alpha) / a0_div, 0, 0, 0, 0⟩

/-- One step of `LowPassFilter.process`: returns the updated filter state and
the output sample `y = a0*x + a1*x1 + a2*x2 - b1*y1 - b2*y2`. -/
def lpfProcess (f : LowPassFilter) (sample : ℝ) : LowPassFilter × ℝ :=
  let y := f.a0 * sample + f.a1 * f.x1 + f.a2 * f.x2 - f.b1 * f.y1 - f.b2 * f.y2
  (⟨f.a0, f.a1, f.a2, f.b1, f.b2, sample, f.x1, y, f.y1⟩, y)

/-- State of the `DCBlocker` class: previous input `x1` and previous output `y1`. -/
structure DCBlocker where
  x1 : ℝ
  y1 : ℝ

/-- Fresh `DCBlocker` (history zero). -/
def mkDCBlocker : DCBlocker := ⟨0, 0⟩

/-- The `DCBlocker` feedback constant `r = 0.995`. -/
def dcBlockerR : ℝ := 0.995

/-- One step of `DCBlocker.process`: `y = x - x1 + r*y1`. -/
def dcProcess (d : DCBlocker) (sample : ℝ) : DCBlocker × ℝ :=
  let y := sample - d.x1 + dcBlockerR * d.y1
  (⟨sample, y⟩, y)

/-- The RMS accumulation loop of `extractPitch`:
`for (i) rms += buffer[i]*buffer[i]`. -/
def sumSquares : List ℝ → ℝ
  | [] => 0
  | x :: xs => x * x + sumSquares xs

/-- Inner correlation loop of `extractPitch`:
`for (let i = 0; i < buffer.length - period; i += 2) sum += buffer[i]*buffer[i+period]`.
The fuel argument only bounds the number of iterations; `corrSum` supplies
`buf.length`, which the loop can never exhaust since `i` grows by two. -/
def corrSumAux (buf : List ℝ) (period : ℕ) : ℕ → ℕ → ℝ
  | _, 0 => 0
  | i, fuel + 1 =>
    if i < buf.length - period then
      buf.getD i 0 * buf.getD (i + period) 0 + corrSumAux buf period (i + 2) fuel
    else 0

/-- The correlation sum of `extractPitch` at one candidate `period`. -/
def corrSum (buf : List ℝ) (period : ℕ) : ℝ := corrSumAux buf period 0 buf.length

/-- The period-scan loop of `extractPitch` with state
`(bestCorrelation, bestPeriod)`, running `period` from `minPeriod` while
`period < maxPeriod` (the fuel is `maxPeriod - minPeriod`); an update happens
only on `sum > bestCorrelation`. -/
def scanPeriods (buf : List ℝ) : ℕ → ℕ → ℝ × ℕ → ℝ × ℕ
  | 0, _, best => best
  | fuel + 1, period, best =>
    let s := corrSum buf period
    if best.1 < s then scanPeriods buf fuel (period + 1) (s, period)
    else scanPeriods buf fuel (period + 1) best

/-- The `extractPitch(buffer, sampleRate)` function: silence gate on
`rms = sqrt(sumSquares/len) < 0.02`, then autocorrelation scan over periods
`floor(sampleRate/400) <= period < floor(sampleRate/70)`, returning
`sampleRate / bestPeriod` when `bestPeriod > 0` and `0` otherwise. -/
def extractPitch (buf : List ℝ) (sampleRate : ℕ) : ℝ :=
  let minPeriod := sampleRate / 400
  let maxPeriod := sampleRate / 70
  let rms := Real.sqrt (sumSquares buf / buf.length)
  if rms < 0.02 then 0
  else
    let best := scanPeriods buf (maxPeriod - minPeriod) minPeriod (-1, 0)
    if 0 < best.2 then (sampleRate : ℝ) / best.2 else 0

/-- Model of a Web Audio `AudioBuffer`: sample rate, frame count
(`length` attribute) and the per-channel sample lists. -/
structure AudioBuffer where
  sampleRate : ℕ
  frames : ℕ
  channels : List (List ℝ)

/-- Platform invariant of `AudioBuffer`: every channel holds exactly
`frames` samples. -/
def AudioBuffer.wellFormed (b : AudioBuffer) : Prop :=
  ∀ ch ∈ b.channels, ch.length = b.frames

/-- The mono downmix `pitchInputData` of `encodeToBirdsong`: channel 0 when
the buffer is mono, otherwise the per-sample average of all channels. -/
def pitchInputData (b : AudioBuffer) : List ℝ :=
  if b.channels.length = 1 then b.channels.getD 0 []
  else (List.range b.frames).map fun i =>
    (b.channels.foldl (fun acc ch => acc + ch.getD i 0) 0) / b.channels.length

/-- The analysis hop `pitchAnalysisStep = 512` of `encodeToBirdsong`. -/
def pitchAnalysisStep : ℕ := 512

/-- The inner fill loop of the pitch-curve construction: writes `v` into `n`
consecutive entries starting at `start`; `List.set` drops out-of-range writes
exactly as the source guard `if (idx < totalLength)` does. -/
def fillN (curve : List ℝ) (start : ℕ) (v : ℝ) : ℕ → List ℝ
  | 0 => curve
  | n + 1 => fillN (curve.set start v) (start + 1) v n

/-- The per-frame pitch update of `encodeToBirdsong`: given the incoming
`lastPitch` and the extracted `pitch`, returns the held value for the frame
and the outgoing `lastPitch`.  On silence (`pitch === 0`) the previous value
is held and `lastPitch` is unchanged; otherwise the smoothed value
`lastPitch*0.8 + pitch*0.2` is both held and stored. -/
def smoothPitch (lastPitch rawPitch : ℝ) : ℝ × ℝ :=
  if rawPitch = 0 then (lastPitch, lastPitch)
  else (lastPitch * 0.8 + rawPitch * 0.2, lastPitch * 0.8 + rawPitch * 0.2)

/-- The frame loop of the pitch-curve construction in `encodeToBirdsong`:
frame `k` covers `[k*512, k*512+512)`, analyses the window slice
`[start, min(start + FFT_SIZE, L))` and breaks out of the loop as soon as the
window is shorter than `FFT_SIZE/2` samples. -/
def pitchCurveGo (mono : List ℝ) (L : ℕ) : ℕ → ℕ → ℝ → List ℝ → List ℝ
  | 0, _, _, curve => curve
  | fuel + 1, k, lastPitch, curve =>
    let start := k * pitchAnalysisStep
    let stop := min (start + FFT_SIZE) L
    if stop - start < FFT_SIZE / 2 then curve
    else
      let slice := (mono.drop start).take (stop - start)
      let raw := extractPitch slice SAMPLE_RATE
      let p := smoothPitch lastPitch raw
      pitchCurveGo mono L fuel (k + 1) p.2 (fillN curve start p.1 pitchAnalysisStep)

/-- Frame count of the pitch analysis:
`numFrames = Math.ceil(totalLength / pitchAnalysisStep)`. -/
def numFrames (L : ℕ) : ℕ := (L + pitchAnalysisStep - 1) / pitchAnalysisStep

/-- The per-sample pitch curve built by `encodeToBirdsong` (initialized to
zero; `lastPitch` starts at the default human pitch 120). -/
def pitchCurve (mono : List ℝ) (L : ℕ) : List ℝ :=
  pitchCurveGo mono L (numFrames L) 0 120 (List.replicate L 0)

/-- The per-channel encoder loop of `encodeToBirdsong`: carries the channel's
low-pass filter and the running carrier phase; `i` is the sample index.  Each
sample is filtered, turned into the envelope `1 + y*3.0*0.8`, the phase is
advanced by `2*pi*carrierFreq/SAMPLE_RATE`, and the output is the soft-clipped
modulated carrier `tanh((envelope * sin(phase + vibrato)) * 0.5)`. -/
def encodeGo (preset : EncodePreset) (curve : List ℝ) :
    LowPassFilter → ℝ → ℕ → List ℝ → List ℝ
  | _, _, _, [] => []
  | lpf, phase, i, x :: xs =>
    let pr := lpfProcess lpf x
    let envelope := 1.0 + pr.2 * 3.0 * 0.8
    let carrierFreq := preset.carrierBaseFreq + curve.getD i 0 * preset.pitchMultiplier
    let phase' := phase + 2 * Real.pi * carrierFreq / (SAMPLE_RATE : ℝ)
    let vibrato := Real.sin ((i : ℝ) * 0.001) * 50
    let s := envelope * Real.sin (phase' + vibrato)
    Real.tanh (s * 0.5) :: encodeGo preset curve pr.1 phase' (i + 1) xs

/-- The `encodeToBirdsong` codec entry point: builds the shared pitch curve
from the mono downmix, then encodes every channel independently with a fresh
filter and zero initial phase.  The output buffer is created by
`ctx.createBuffer(numChannels, totalLength, SAMPLE_RATE)`. -/
def encodeToBirdsong (input : AudioBuffer) (preset : EncodePreset) : AudioBuffer :=
  let L := input.frames
  let curve := pitchCurve (pitchInputData input) L
  ⟨SAMPLE_RATE, L, input.channels.map fun ch =>
    encodeGo preset curve (mkLowPassFilter preset.inputLpfCutoff (SAMPLE_RATE : ℝ)) 0 0 ch⟩

/-- The decoder's filter-chain step: runs one sample through every filter of
the cascade in order, threading the value and updating each filter's state. -/
def runFilterChain : List LowPassFilter → ℝ → List LowPassFilter × ℝ
  | [], v => ([], v)
  | f :: fs, v =>
    let pr := lpfProcess f v
    let rest := runFilterChain fs pr.2
    (pr.1 :: rest.1, rest.2)

/-- The per-channel decoder loop of `decodeFromBirdsong`: rectify, pass
through the low-pass cascade, DC-block, apply makeup gain. -/
def decodeGo (gain : ℝ) : List LowPassFilter → DCBlocker → List ℝ → List ℝ
  | _, _, [] => []
  | fs, dcb, x :: xs =>
    let rectified := |x|
    let fr := runFilterChain fs rectified
    let dr := dcProcess dcb fr.2
    dr.2 * gain :: decodeGo gain fr.1 dr.1 xs

/-- The `decodeFromBirdsong` codec entry point: each channel gets a fresh
chain of `filterStages` low-pass filters at `lpfCutoff` and a fresh DC
blocker.  The output buffer is created at `SAMPLE_RATE`. -/
def decodeFromBirdsong (input : AudioBuffer) (preset : DecodePreset) : AudioBuffer :=
  ⟨SAMPLE_RATE, input.frames, input.channels.map fun ch =>
    decodeGo preset.gainMultiplier
      (List.replicate preset.filterStages (mkLowPassFilter preset.lpfCutoff (SAMPLE_RATE : ℝ)))
      mkDCBlocker ch⟩

/-- JavaScript ToInt-style truncation toward zero of a real number, as applied
by `DataView.setInt16` to its value argument. -/
def jsTrunc (x : ℝ) : ℤ := if x < 0 then -⌊-x⌋ else ⌊x⌋

/-- The integer handed to `view.setInt16` for one float sample in
`bufferToWavBlob`: clamp to [-1, 1] with `Math.max(-1, Math.min(1, s))`, then
scale negative values by `0x8000` and the rest by `0x7FFF`. -/
def pcm16Val (x : ℝ) : ℤ :=
  let s := max (-1) (min 1 x)
  jsTrunc (if s < 0 then s * 32768 else s * 32767)

/-- Little-endian byte pair written by `setUint16`. -/
def u16le (n : ℕ) : List ℕ := [n % 256, n / 256 % 256]

/-- Little-endian byte quadruple written by `setUint32`. -/
def u32le (n : ℕ) : List ℕ :=
  [n % 256, n / 2 ^ 8 % 256, n / 2 ^ 16 % 256, n / 2 ^ 24 % 256]

/-- Little-endian two's-complement byte pair written by `setInt16`. -/
def i16le (v : ℤ) : List ℕ := u16le (v % 65536).toNat

/-- The byte sequence produced by `bufferToWavBlob`: the 44-byte
RIFF/WAVE/PCM header followed by the channel-interleaved 16-bit samples.
String literals are embedded as their ASCII codes
("RIFF", "WAVE", "fmt ", "data"). -/
def bufferToWavBlob (b : AudioBuffer) : List ℕ :=
  let numChannels := b.channels.length
  let dataLength := b.frames * numChannels * 2
  let totalLength := 44 + dataLength
  [82, 73, 70, 70] ++ u32le (totalLength - 8) ++ [87, 65, 86, 69] ++
  [102, 109, 116, 32] ++ u32le 16 ++ u16le 1 ++ u16le numChannels ++
  u32le b.sampleRate ++ u32le (b.sampleRate * numChannels * 2) ++
  u16le (numChannels * 2) ++ u16le 16 ++ [100, 97, 116, 97] ++ u32le dataLength ++
  ((List.range b.frames).flatMap fun i =>
    b.channels.flatMap fun ch => i16le (pcm16Val (ch.getD i 0)))

/-- Spec view of the low-pass filter applied sequentially to a list: the list
of per-sample outputs. -/
def lpfOutputs : LowPassFilter → List ℝ → List ℝ
  | _, [] => []
  | f, x :: xs =>
    let pr := lpfProcess f x
    pr.2 :: lpfOutputs pr.1 xs

/-- Per-sample phase increment of the encoder's carrier at sample `j`:
`2*pi*(carrierBaseFreq + pitchCurve[j]*pitchMultiplier)/SAMPLE_RATE`. -/
def phaseDelta (preset : EncodePreset) (curve : List ℝ) (j : ℕ) : ℝ :=
  2 * Real.pi * (preset.carrierBaseFreq + curve.getD j 0 * preset.pitchMultiplier) /
    (SAMPLE_RATE : ℝ)

/-- Running carrier phase of the encoder after processing sample `i`:
the sum of the per-sample increments over all `j ≤ i`. -/
def phaseSum (preset : EncodePreset) (curve : List ℝ) (i : ℕ) : ℝ :=
  ∑ j ∈ Finset.range (i + 1), phaseDelta preset curve j

/-- Spec view of the raw pitch extracted for analysis frame `k`: the pitch of
the window slice `[k*512, min(k*512 + FFT_SIZE, L))` of the mono downmix. -/
def frameRawPitch (mono : List ℝ) (L k : ℕ) : ℝ :=
  extractPitch ((mono.drop (k * pitchAnalysisStep)).take
    (min (k * pitchAnalysisStep + FFT_SIZE) L - k * pitchAnalysisStep)) SAMPLE_RATE

/-- Spec view of the `lastPitch` state entering analysis frame `k`
(the source initializes it to the default human pitch 120). -/
def lastPitchBefore (mono : List ℝ) (L : ℕ) : ℕ → ℝ
  | 0 => 120
  | k + 1 => (smoothPitch (lastPitchBefore mono L k) (frameRawPitch mono L k)).2

/-- Spec view of the held (zero-order-hold) pitch value of analysis frame `k`:
the smoothed value on voiced frames, the previous value on silent frames. -/
def heldPitch (mono : List ℝ) (L k : ℕ) : ℝ :=
  (smoothPitch (lastPitchBefore mono L k) (frameRawPitch mono L k)).1

/-- A decode preset violating every documented validity constraint: cutoff at
the full sample rate (twice Nyquist), zero filter stages, zero gain. -/
def invalidDecode : DecodePreset :=
  ⟨"bad", "INVALID", 44100, 0, 0, "cutoff at the sample rate, zero stages, zero gain"⟩

/-- A stereo test buffer with 1000 frames at 44100 Hz, used to instantiate the
WAV-serialization size property. -/
def demoBuf : AudioBuffer :=
  ⟨44100, 1000, [List.replicate 1000 0, List.replicate 1000 0]⟩

end

/-! ### General helper lemmas -/

theorem tanh_mem_Ioo (t : ℝ) : -1 < Real.tanh t ∧ Real.tanh t < 1 := by
  have hc : 0 < Real.cosh t := Real.cosh_pos t
  have h1 : Real.sinh t < Real.cosh t := Real.sinh_lt_cosh t
  have h2 : -Real.cosh t < Real.sinh t := by
    have h := Real.sinh_lt_cosh (-t)
    rw [Real.sinh_neg, Real.cosh_neg] at h
    linarith
  rw [Real.tanh_eq_sinh_div_cosh]
  refine ⟨?_, ?_⟩
  · rw [lt_div_iff₀ hc]
    linarith
  · rw [div_lt_one hc]
    exact h1

theorem encodeGo_length (preset : EncodePreset) (curve : List ℝ) :
    ∀ (xs : List ℝ) (lpf : LowPassFilter) (phase : ℝ) (i : ℕ),
      (encodeGo preset curve lpf phase i xs).length = xs.length := by
  intro xs
  induction xs with
  | nil => intro lpf phase i; rfl
  | cons x xs ih => intro lpf phase i; simp only [encodeGo, List.length_cons, ih]

theorem decodeGo_length (gain : ℝ) :
    ∀ (xs : List ℝ) (fs : List LowPassFilter) (dcb : DCBlocker),
      (decodeGo gain fs dcb xs).length = xs.length := by
  intro xs
  induction xs with
  | nil => intro fs dcb; rfl
  | cons x xs ih => intro fs dcb; simp only [decodeGo, List.length_cons, ih]

theorem encodeGo_mem_tanh (preset : EncodePreset) (curve : List ℝ) :
    ∀ (xs : List ℝ) (lpf : LowPassFilter) (phase : ℝ) (i : ℕ) (y : ℝ),
      y ∈ encodeGo preset curve lpf phase i xs → ∃ t, y = Real.tanh t := by
  intro xs
  induction xs with
  | nil => intro lpf phase i y hy; simp [encodeGo] at hy
  | cons x xs ih =>
    intro lpf phase i y hy
    simp only [encodeGo, List.mem_cons] at hy
    rcases hy with h | h
    · exact ⟨_, h⟩
    · exact ih _ _ _ _ h

theorem encode_channels_eq (input : AudioBuffer) (preset : EncodePreset) :
    (encodeToBirdsong input preset).channels
      = input.channels.map (fun ch =>
          encodeGo preset (pitchCurve (pitchInputData input) input.frames)
            (mkLowPassFilter preset.inputLpfCutoff (SAMPLE_RATE : ℝ)) 0 0 ch) := rfl

theorem decode_channels_eq (input : AudioBuffer) (preset : DecodePreset) :
    (decodeFromBirdsong input preset).channels
      = input.channels.map (fun ch =>
          decodeGo preset.gainMultiplier
            (List.replicate preset.filterStages
              (mkLowPassFilter preset.lpfCutoff (SAMPLE_RATE : ℝ)))
            mkDCBlocker ch) := rfl

theorem lpf_alpha_denom_pos (ω : ℝ) : 0 < 1 + Real.sin ω / (2 * Real.sqrt 2) := by
  have h2 : 1 ≤ Real.sqrt 2 := Real.one_le_sqrt.mpr (by norm_num)
  have hs : -1 ≤ Real.sin ω := Real.neg_one_le_sin ω
  have hpos : 0 < 2 * Real.sqrt 2 := by positivity
  have key : 0 < 2 * Real.sqrt 2 + Real.sin ω := by nlinarith
  have heq : 1 + Real.sin ω / (2 * Real.sqrt 2)
      = (2 * Real.sqrt 2 + Real.sin ω) / (2 * Real.sqrt 2) := by
    field_simp
  rw [heq]
  exact div_pos key hpos

theorem lpf_dc_identity (sn cs r : ℝ) (hd0 : 1 + sn / (2 * r) ≠ 0) :
    (1 - cs) / 2 / (1 + sn / (2 * r)) + (1 - cs) / (1 + sn / (2 * r)) +
        (1 - cs) / 2 / (1 + sn / (2 * r)) =
      1 + (-2 * cs) / (1 + sn / (2 * r)) + (1 - sn / (2 * r)) / (1 + sn / (2 * r)) := by
  set d := 1 + sn / (2 * r) with hdd
  rw [div_add_div_same, div_add_div_same, div_eq_iff hd0, add_mul, add_mul, one_mul,
    div_mul_cancel₀ _ hd0, div_mul_cancel₀ _ hd0, hdd]
  ring

theorem flatMap_length_const {α β : Type _} (l : List α) (g : α → List β) (k : ℕ)
    (h : ∀ a ∈ l, (g a).length = k) : (l.flatMap g).length = l.length * k := by
  induction l with
  | nil => simp
  | cons a l ih =>
    simp only [List.flatMap_cons, List.length_append, List.length_cons]
    rw [h a (by simp), ih (fun b hb => h b (by simp [hb]))]
    ring

theorem mem_range1 {m s n : ℕ} : m ∈ List.range' s n ↔ s ≤ m ∧ m < s + n := by
  rw [List.mem_range']
  constructor
  · rintro ⟨i, hi, rfl⟩
    omega
  · intro hm
    exact ⟨m - s, by omega, by omega⟩

theorem scanPeriods_stay (buf : List ℝ) :
    ∀ (n p : ℕ) (bc : ℝ) (bp : ℕ), (∀ q ∈ List.range' p n, corrSum buf q ≤ bc) →
      scanPeriods buf n p (bc, bp) = (bc, bp) := by
  intro n
  induction n with
  | zero => intro p bc bp h; rfl
  | succ n ih =>
    intro p bc bp h
    have hp : corrSum buf p ≤ bc := h p (mem_range1.mpr (by omega))
    simp only [scanPeriods]
    rw [if_neg (not_lt.mpr hp)]
    exact ih (p + 1) bc bp (fun q hq =>
      h q (mem_range1.mpr (by rw [mem_range1] at hq; omega)))

theorem scanPeriods_mem (buf : List ℝ) :
    ∀ (n p : ℕ) (bc : ℝ) (bp : ℕ),
      (scanPeriods buf n p (bc, bp)).2 = bp ∨
        (scanPeriods buf n p (bc, bp)).2 ∈ List.range' p n := by
  intro n
  induction n with
  | zero => intro p bc bp; left; rfl
  | succ n ih =>
    intro p bc bp
    simp only [scanPeriods]
    by_cases hup : bc < corrSum buf p
    · rw [if_pos hup]
      rcases ih (p + 1) (corrSum buf p) p with h | h
      · right
        rw [h]
        exact mem_range1.mpr (by omega)
      · right
        rw [mem_range1] at h ⊢
        omega
    · rw [if_neg hup]
      rcases ih (p + 1) bc bp with h | h
      · left
        exact h
      · right
        rw [mem_range1] at h ⊢
        omega

theorem scanPeriods_finds (buf : List ℝ) (L : ℕ) :
    ∀ (n p : ℕ) (bc : ℝ) (bp : ℕ), L ∈ List.range' p n →
      (∀ q ∈ List.range' p n, corrSum buf q ≤ corrSum buf L) →
      (∀ q ∈ List.range' p n, corrSum buf q = corrSum buf L → L ≤ q) →
      bc < corrSum buf L →
      scanPeriods buf n p (bc, bp) = (corrSum buf L, L) := by
  intro n
  induction n with
  | zero => intro p bc bp hL; simp at hL
  | succ n ih =>
    intro p bc bp hL hmax hfirst hbc
    simp only [scanPeriods]
    by_cases hLp : L = p
    · subst hLp
      rw [if_pos hbc]
      exact scanPeriods_stay buf n (L + 1) _ _ (fun q hq =>
        hmax q (mem_range1.mpr (by rw [mem_range1] at hq; omega)))
    · have hL' : L ∈ List.range' (p + 1) n := by
        rw [mem_range1] at hL ⊢
        omega
      have hmax' : ∀ q ∈ List.range' (p + 1) n, corrSum buf q ≤ corrSum buf L :=
        fun q hq => hmax q (mem_range1.mpr (by rw [mem_range1] at hq; omega))
      have hfirst' : ∀ q ∈ List.range' (p + 1) n, corrSum buf q = corrSum buf L → L ≤ q :=
        fun q hq => hfirst q (mem_range1.mpr (by rw [mem_range1] at hq; omega))
      by_cases hup : bc < corrSum buf p
      · rw [if_pos hup]
        have hple : corrSum buf p ≤ corrSum buf L :=
          hmax p (mem_range1.mpr (by omega))
        have hstrict : corrSum buf p < corrSum buf L := by
          rcases lt_or_eq_of_le hple with hlt | heq
          · exact hlt
          · exfalso
            have hLlep := hfirst p (mem_range1.mpr (by omega)) heq
            rw [mem_range1] at hL'
            omega
        exact ih (p + 1) _ _ hL' hmax' hfirst' hstrict
      · rw [if_neg hup]
        exact ih (p + 1) _ _ hL' hmax' hfirst' hbc

theorem fillN_length : ∀ (n : ℕ) (curve : List ℝ) (start : ℕ) (v : ℝ),
    (fillN curve start v n).length = curve.length := by
  intro n
  induction n with
  | zero => intro curve start v; rfl
  | succ n ih =>
    intro curve start v
    simp only [fillN]
    rw [ih, List.length_set]

theorem fillN_getD : ∀ (n : ℕ) (curve : List ℝ) (start : ℕ) (v : ℝ) (idx : ℕ),
    (fillN curve start v n).getD idx 0 =
      if start ≤ idx ∧ idx < start + n ∧ idx < curve.length then v
      else curve.getD idx 0 := by
  intro n
  induction n with
  | zero =>
    intro curve start v idx
    simp only [fillN]
    rw [if_neg (by omega)]
  | succ n ih =>
    intro curve start v idx
    simp only [fillN]
    rw [ih]
    simp only [List.length_set, List.getD_eq_getElem?_getD, List.getElem?_set]
    by_cases heq : start = idx
    · subst heq
      by_cases hlen : start < curve.length
      · rw [if_pos rfl, if_pos hlen, if_neg (by omega), if_pos ⟨le_refl start, by omega, hlen⟩]
        rfl
      · rw [if_pos rfl, if_neg hlen, if_neg (by omega), if_neg (by omega),
          List.getElem?_eq_none (by omega)]
    · rw [if_neg heq]
      by_cases hcond : start + 1 ≤ idx ∧ idx < start + 1 + n ∧ idx < curve.length
      · rw [if_pos hcond, if_pos (by omega)]
      · rw [if_neg hcond, if_neg (by omega)]

theorem sumSquares_replicate_zero : ∀ n : ℕ, sumSquares (List.replicate n (0 : ℝ)) = 0 := by
  intro n
  induction n with
  | zero => rfl
  | succ n ih =>
    rw [List.replicate_succ]
    simp only [sumSquares]
    rw [ih]
    norm_num

theorem pitchCurveGo_getD (mono : List ℝ) (L : ℕ) :
    ∀ (fuel k : ℕ) (curve : List ℝ) (idx : ℕ), curve.length = L → idx < L →
      (pitchCurveGo mono L fuel k (lastPitchBefore mono L k) curve).getD idx 0 =
        if k ≤ idx / 512 ∧ idx / 512 < k + fuel ∧ idx / 512 * 512 + 1024 ≤ L then
          heldPitch mono L (idx / 512)
        else curve.getD idx 0 := by
  intro fuel
  induction fuel with
  | zero =>
    intro k curve idx hlen hidx
    simp only [pitchCurveGo]
    split_ifs with hcond
    · exfalso; omega
    · rfl
  | succ fuel ih =>
    intro k curve idx hlen hidx
    simp only [pitchCurveGo, pitchAnalysisStep, FFT_SIZE]
    by_cases hbrk : min (k * 512 + 2048) L - k * 512 < 2048 / 2
    · rw [if_pos hbrk]
      split_ifs with hcond
      · exfalso; omega
      · rfl
    · rw [if_neg hbrk]
      have hstate : (smoothPitch (lastPitchBefore mono L k)
          (extractPitch ((mono.drop (k * 512)).take (min (k * 512 + 2048) L - k * 512))
            SAMPLE_RATE)).2 = lastPitchBefore mono L (k + 1) := rfl
      have hheld : (smoothPitch (lastPitchBefore mono L k)
          (extractPitch ((mono.drop (k * 512)).take (min (k * 512 + 2048) L - k * 512))
            SAMPLE_RATE)).1 = heldPitch mono L k := rfl
      rw [hstate, hheld]
      rw [ih (k + 1) (fillN curve (k * 512) (heldPitch mono L k) 512) idx
        (by rw [fillN_length]; exact hlen) hidx]
      rw [fillN_getD, hlen]
      split_ifs with h1 h2 h3 h4 h5
      · rfl
      · exfalso; omega
      · have hd : idx / 512 = k := by omega
        rw [hd]
      · exfalso; omega
      · exfalso; omega
      · rfl

/-! ### Claim theorems -/

/-- C7: for a cutoff strictly between 0 and Nyquist, the normalized
coefficients of the `LowPassFilter` constructor satisfy exact unit DC gain,
`a0 + a1 + a2 = 1 + b1 + b2`, and consequently one `process` step on the
steady state whose entire history equals a constant `x` outputs exactly `x`. -/
theorem lpf_unit_dc_gain (cutoff sampleRate : ℝ)
    (hc : 0 < cutoff) (hn : cutoff < sampleRate / 2) :
    (mkLowPassFilter cutoff sampleRate).a0 + (mkLowPassFilter cutoff sampleRate).a1 +
        (mkLowPassFilter cutoff sampleRate).a2 =
      1 + (mkLowPassFilter cutoff sampleRate).b1 + (mkLowPassFilter cutoff sampleRate).b2 ∧
    ∀ x : ℝ,
      (lpfProcess
        ⟨(mkLowPassFilter cutoff sampleRate).a0, (mkLowPassFilter cutoff sampleRate).a1,
          (mkLowPassFilter cutoff sampleRate).a2, (mkLowPassFilter cutoff sampleRate).b1,
          (mkLowPassFilter cutoff sampleRate).b2, x, x, x, x⟩ x).2 = x := by
  have hd := lpf_alpha_denom_pos (2 * Real.pi * cutoff / sampleRate)
  have hid : (mkLowPassFilter cutoff sampleRate).a0 + (mkLowPassFilter cutoff sampleRate).a1 +
      (mkLowPassFilter cutoff sampleRate).a2 =
      1 + (mkLowPassFilter cutoff sampleRate).b1 + (mkLowPassFilter cutoff sampleRate).b2 := by
    dsimp only [mkLowPassFilter]
    exact lpf_dc_identity (Real.sin (2 * Real.pi * cutoff / sampleRate))
      (Real.cos (2 * Real.pi * cutoff / sampleRate)) (Real.sqrt 2) (ne_of_gt hd)
  refine ⟨hid, ?_⟩
  intro x
  dsimp only [lpfProcess]
  linear_combination x * hid

theorem lpf_unit_dc_gain_witness :
    (0 : ℝ) < 2500 ∧ (2500 : ℝ) < 44100 / 2 ∧
    ((mkLowPassFilter 2500 44100).a0 + (mkLowPassFilter 2500 44100).a1 +
        (mkLowPassFilter 2500 44100).a2 =
      1 + (mkLowPassFilter 2500 44100).b1 + (mkLowPassFilter 2500 44100).b2) :=
  ⟨by norm_num, by norm_num,
    (lpf_unit_dc_gain 2500 44100 (by norm_num) (by norm_num)).1⟩

/-- C9: for every real sample value, including values outside [-1, 1], the
integer handed to the 16-bit store in `bufferToWavBlob` lies in
[-32768, 32767], so the int16 write never wraps around. -/
theorem pcm16_no_wrap (x : ℝ) : -32768 ≤ pcm16Val x ∧ pcm16Val x ≤ 32767 := by
  simp only [pcm16Val, jsTrunc]
  set s := max (-1) (min 1 x) with hs
  have hs1 : -1 ≤ s := le_max_left _ _
  have hs2 : s ≤ 1 := max_le (by norm_num) (min_le_left _ _)
  by_cases hneg : s < 0
  · rw [if_pos hneg]
    have hv1 : -32768 ≤ s * 32768 := by nlinarith
    have hv2 : s * 32768 < 0 := by nlinarith
    rw [if_pos hv2]
    constructor
    · have h := Int.floor_le_floor (show -(s * 32768) ≤ ((32768 : ℤ) : ℝ) by push_cast; linarith)
      rw [Int.floor_intCast] at h
      omega
    · have h := Int.floor_nonneg.mpr (show (0 : ℝ) ≤ -(s * 32768) by linarith)
      omega
  · rw [if_neg hneg]
    push_neg at hneg
    have hv1 : (0 : ℝ) ≤ s * 32767 := by nlinarith
    have hv2 : s * 32767 ≤ 32767 := by nlinarith
    rw [if_neg (not_lt.mpr hv1)]
    constructor
    · have h := Int.floor_nonneg.mpr hv1
      omega
    · have h := Int.floor_le_floor (show s * 32767 ≤ ((32767 : ℤ) : ℝ) by push_cast; linarith)
      rw [Int.floor_intCast] at h
      omega

theorem pcm16_no_wrap_witness : -32768 ≤ pcm16Val 2 ∧ pcm16Val 2 ≤ 32767 :=
  pcm16_no_wrap 2

/-- C2: every sample of the buffer returned by `encodeToBirdsong` lies
strictly inside the open interval (-1, 1) — the soft-clip guarantee of the
final `tanh`.  In this real-number embedding every input sample is finite by
construction, so the claim's finiteness proviso is automatic. -/
theorem encode_output_soft_clipped (input : AudioBuffer) (preset : EncodePreset)
    (c i : ℕ) (hc : c < (encodeToBirdsong input preset).channels.length)
    (hi : i < ((encodeToBirdsong input preset).channels.getD c []).length) :
    -1 < ((encodeToBirdsong input preset).channels.getD c []).getD i 0 ∧
      ((encodeToBirdsong input preset).channels.getD c []).getD i 0 < 1 := by
  have hmemch : (encodeToBirdsong input preset).channels.getD c [] ∈
      (encodeToBirdsong input preset).channels := by
    rw [List.getD_eq_getElem _ _ hc]
    exact List.getElem_mem hc
  have hmemx : ((encodeToBirdsong input preset).channels.getD c []).getD i 0 ∈
      (encodeToBirdsong input preset).channels.getD c [] := by
    rw [List.getD_eq_getElem _ _ hi]
    exact List.getElem_mem hi
  have htanh : ∃ t,
      ((encodeToBirdsong input preset).channels.getD c []).getD i 0 = Real.tanh t := by
    rw [encode_channels_eq] at hmemch hmemx ⊢
    rcases List.mem_map.mp hmemch with ⟨ch0, _, hch⟩
    rw [← hch] at hmemx ⊢
    exact encodeGo_mem_tanh _ _ _ _ _ _ _ hmemx
  rcases htanh with ⟨t, ht⟩
  rw [ht]
  exact tanh_mem_Ioo t

theorem encode_output_soft_clipped_witness :
    -1 < ((encodeToBirdsong (AudioBuffer.mk 44100 1 [[0]]) turdus).channels.getD 0 []).getD 0 0 ∧
      ((encodeToBirdsong (AudioBuffer.mk 44100 1 [[0]]) turdus).channels.getD 0 []).getD 0 0 < 1 :=
  encode_output_soft_clipped (AudioBuffer.mk 44100 1 [[0]]) turdus 0 0
    (by rw [encode_channels_eq]; simp)
    (by rw [encode_channels_eq]; simp [encodeGo_length])

/-- C5 (code bug): `decodeFromBirdsong` performs no preset validation at all.
Called on a one-frame mono buffer with a preset whose cutoff equals the full
sample rate (twice Nyquist), whose stage count is zero and whose gain is zero,
it runs the complete processing loop and returns an ordinary output buffer
instead of surfacing a typed failure before processing. -/
theorem decode_accepts_invalid_preset :
    decodeFromBirdsong (AudioBuffer.mk 44100 1 [[1]]) invalidDecode
      = AudioBuffer.mk 44100 1 [[0]] := by
  simp [decodeFromBirdsong, invalidDecode, decodeGo, runFilterChain, dcProcess,
    mkDCBlocker, dcBlockerR, SAMPLE_RATE]

/-- C6 (amended): both codec directions preserve the channel count, the frame
count and well-formedness of the input buffer, but the output sample rate is
always the engine constant `SAMPLE_RATE = 44100` — it equals the input's rate
only when the input is already at 44100 Hz. -/
theorem codec_shape (input : AudioBuffer) (ep : EncodePreset) (dp : DecodePreset) :
    (encodeToBirdsong input ep).channels.length = input.channels.length ∧
    (encodeToBirdsong input ep).frames = input.frames ∧
    (encodeToBirdsong input ep).sampleRate = SAMPLE_RATE ∧
    (input.wellFormed → (encodeToBirdsong input ep).wellFormed) ∧
    (decodeFromBirdsong input dp).channels.length = input.channels.length ∧
    (decodeFromBirdsong input dp).frames = input.frames ∧
    (decodeFromBirdsong input dp).sampleRate = SAMPLE_RATE ∧
    (input.wellFormed → (decodeFromBirdsong input dp).wellFormed) := by
  refine ⟨by rw [encode_channels_eq]; simp, rfl, rfl, ?_,
    by rw [decode_channels_eq]; simp, rfl, rfl, ?_⟩
  · intro hwf ch hch
    rw [encode_channels_eq] at hch
    rcases List.mem_map.mp hch with ⟨ch0, hch0, rfl⟩
    show (encodeGo _ _ _ _ _ ch0).length = _
    rw [encodeGo_length]
    exact hwf ch0 hch0
  · intro hwf ch hch
    rw [decode_channels_eq] at hch
    rcases List.mem_map.mp hch with ⟨ch0, hch0, rfl⟩
    show (decodeGo _ _ _ ch0).length = _
    rw [decodeGo_length]
    exact hwf ch0 hch0

theorem codec_shape_witness :
    (encodeToBirdsong (AudioBuffer.mk 44100 1 [[0]]) turdus).channels.length
        = (AudioBuffer.mk 44100 1 [[0]]).channels.length ∧
    (encodeToBirdsong (AudioBuffer.mk 44100 1 [[0]]) turdus).frames
        = (AudioBuffer.mk 44100 1 [[0]]).frames ∧
    (encodeToBirdsong (AudioBuffer.mk 44100 1 [[0]]) turdus).sampleRate = SAMPLE_RATE ∧
    ((AudioBuffer.mk 44100 1 [[0]]).wellFormed →
      (encodeToBirdsong (AudioBuffer.mk 44100 1 [[0]]) turdus).wellFormed) ∧
    (decodeFromBirdsong (AudioBuffer.mk 44100 1 [[0]]) stdDecode).channels.length
        = (AudioBuffer.mk 44100 1 [[0]]).channels.length ∧
    (decodeFromBirdsong (AudioBuffer.mk 44100 1 [[0]]) stdDecode).frames
        = (AudioBuffer.mk 44100 1 [[0]]).frames ∧
    (decodeFromBirdsong (AudioBuffer.mk 44100 1 [[0]]) stdDecode).sampleRate = SAMPLE_RATE ∧
    ((AudioBuffer.mk 44100 1 [[0]]).wellFormed →
      (decodeFromBirdsong (AudioBuffer.mk 44100 1 [[0]]) stdDecode).wellFormed) :=
  codec_shape (AudioBuffer.mk 44100 1 [[0]]) turdus stdDecode

/-- C6 (counterexample): on a well-formed one-channel, one-frame input buffer
whose sample rate is 48000, the buffer returned by `encodeToBirdsong` has
sample rate 44100, not the input's sample rate — the output is always created
at the engine constant `SAMPLE_RATE`. -/
theorem codec_samplerate_cex :
    (encodeToBirdsong (AudioBuffer.mk 48000 1 [[0]]) turdus).sampleRate
      ≠ (AudioBuffer.mk 48000 1 [[0]]).sampleRate := by
  decide

/-- C8: the byte sequence produced by `bufferToWavBlob` has length exactly
`44 + frames * channels * 2`, bytes 0-3 spell "RIFF" and bytes 8-11 spell
"WAVE". -/
theorem wav_header_spec (b : AudioBuffer) :
    (bufferToWavBlob b).length = 44 + b.frames * b.channels.length * 2 ∧
    (bufferToWavBlob b).take 4 = [82, 73, 70, 70] ∧
    ((bufferToWavBlob b).drop 8).take 4 = [87, 65, 86, 69] := by
  have hinner : ∀ i ∈ List.range b.frames,
      (b.channels.flatMap fun ch => i16le (pcm16Val (ch.getD i 0))).length
        = b.channels.length * 2 :=
    fun i _ => flatMap_length_const _ _ 2 (fun ch _ => rfl)
  have hdata : ((List.range b.frames).flatMap fun i =>
      b.channels.flatMap fun ch => i16le (pcm16Val (ch.getD i 0))).length
      = b.frames * (b.channels.length * 2) := by
    rw [flatMap_length_const _ _ _ hinner, List.length_range]
  refine ⟨?_, ?_, ?_⟩
  · simp only [bufferToWavBlob, u32le, u16le, List.append_assoc, List.length_append,
      List.length_cons, List.length_nil, hdata]
    ring
  · simp [bufferToWavBlob, u32le, u16le]
  · simp [bufferToWavBlob, u32le, u16le]

theorem getD_map_of_lt {α β : Type _} (f : α → β) (l : List α) (c : ℕ)
    (hc : c < l.length) (d : β) (d' : α) : (l.map f).getD c d = f (l.getD c d') := by
  rw [List.getD_eq_getElem _ _ (by simpa using hc), List.getElem_map,
    List.getD_eq_getElem _ _ hc]

theorem encodeGo_getD (preset : EncodePreset) (curve : List ℝ) :
    ∀ (xs : List ℝ) (lpf : LowPassFilter) (phase : ℝ) (i k : ℕ), k < xs.length →
      (encodeGo preset curve lpf phase i xs).getD k 0 =
        Real.tanh (0.5 * (1.0 + (lpfOutputs lpf xs).getD k 0 * 3.0 * 0.8) *
          Real.sin (phase + (∑ j ∈ Finset.range (k + 1), phaseDelta preset curve (i + j)) +
            Real.sin (((i + k : ℕ) : ℝ) * 0.001) * 50)) := by
  intro xs
  induction xs with
  | nil => intro lpf phase i k hk; simp at hk
  | cons x xs ih =>
    intro lpf phase i k hk
    match k with
    | 0 =>
      simp only [encodeGo, lpfOutputs, List.getD_cons_zero, Finset.sum_range_succ,
        Finset.sum_range_zero, Nat.add_zero, zero_add, phaseDelta]
      congr 1
      ring
    | k + 1 =>
      have hk' : k < xs.length := by
        simpa using hk
      simp only [encodeGo, lpfOutputs, List.getD_cons_succ]
      rw [ih (lpfProcess lpf x).1
        (phase + 2 * Real.pi *
          (preset.carrierBaseFreq + curve.getD i 0 * preset.pitchMultiplier) / (SAMPLE_RATE : ℝ))
        (i + 1) k hk']
      have hss : (∑ j ∈ Finset.range (k + 1), phaseDelta preset curve (i + (j + 1)))
          = ∑ j ∈ Finset.range (k + 1), phaseDelta preset curve (i + 1 + j) :=
        Finset.sum_congr rfl (fun j _ => by
          rw [show i + (j + 1) = i + 1 + j from by omega])
      have hsum : (∑ j ∈ Finset.range (k + 1 + 1), phaseDelta preset curve (i + j))
          = phaseDelta preset curve i +
            ∑ j ∈ Finset.range (k + 1), phaseDelta preset curve (i + 1 + j) := by
        rw [Finset.sum_range_succ' (fun j => phaseDelta preset curve (i + j)) (k + 1)]
        simp only [Nat.add_zero]
        rw [hss]
        exact add_comm _ _
      rw [hsum]
      have hv : i + 1 + k = i + (k + 1) := by omega
      rw [hv]
      congr 1
      congr 1
      congr 1
      simp only [phaseDelta]
      ring

/-- C1: the sample written by `encodeToBirdsong` at channel `c`, index `i`
equals `tanh(0.5 * envelope * sin(phase + vibrato))`, where the envelope is
`1 + lpf(input[c][i]) * 3.0 * 0.8` with `lpf` the per-channel biquad low-pass
at `inputLpfCutoff`, the phase is the running sum over `j ≤ i` of
`2*pi*(carrierBaseFreq + pitchCurve[j]*pitchMultiplier)/SAMPLE_RATE`, and the
vibrato is `sin(i * 0.001) * 50`. -/
theorem encode_sample_formula (input : AudioBuffer) (preset : EncodePreset) (c i : ℕ)
    (hwf : input.wellFormed) (hc : c < input.channels.length) (hi : i < input.frames) :
    ((encodeToBirdsong input preset).channels.getD c []).getD i 0 =
      Real.tanh (0.5 *
        (1.0 + (lpfOutputs (mkLowPassFilter preset.inputLpfCutoff (SAMPLE_RATE : ℝ))
            (input.channels.getD c [])).getD i 0 * 3.0 * 0.8) *
        Real.sin (phaseSum preset (pitchCurve (pitchInputData input) input.frames) i +
          Real.sin ((i : ℝ) * 0.001) * 50)) := by
  rw [encode_channels_eq, getD_map_of_lt _ _ _ hc _ []]
  have hlen : (input.channels.getD c []).length = input.frames := by
    rw [List.getD_eq_getElem _ _ hc]
    exact hwf _ (List.getElem_mem hc)
  rw [encodeGo_getD preset (pitchCurve (pitchInputData input) input.frames)
    (input.channels.getD c []) (mkLowPassFilter preset.inputLpfCutoff (SAMPLE_RATE : ℝ)) 0 0 i
    (by rw [hlen]; exact hi)]
  simp only [Nat.zero_add, zero_add, phaseSum]

/-- C4 (amended): one pitch value is computed per 512-sample analysis step and
held constant across the step, following the smoothing recurrence
`pitch = 0.8*previous + 0.2*new` on voiced frames and `previous` on silent
frames (see `heldPitch` and `lastPitchBefore`) — but only for sample indices
whose analysis step starts at least `FFT_SIZE/2 = 1024` samples before the end
of the buffer.  The frame loop breaks as soon as the remaining window is
shorter than 1024 samples, so all later samples keep the array default 0
instead of a held pitch value. -/
theorem pitchCurve_spec (mono : List ℝ) (L idx : ℕ) (hidx : idx < L) :
    (pitchCurve mono L).getD idx 0 =
      if idx / 512 * 512 + 1024 ≤ L then heldPitch mono L (idx / 512) else 0 := by
  have h0 : (120 : ℝ) = lastPitchBefore mono L 0 := rfl
  have hd : idx / 512 < numFrames L := by
    simp only [numFrames, pitchAnalysisStep]
    omega
  simp only [pitchCurve]
  rw [h0, pitchCurveGo_getD mono L (numFrames L) 0 (List.replicate L 0) idx
    (List.length_replicate L 0) hidx]
  split_ifs with h1 h2 h3
  · rfl
  · exfalso; omega
  · exfalso; omega
  · rw [List.getD_eq_getElem?_getD, List.getElem?_replicate, if_pos hidx]
    rfl

theorem pitchCurve_spec_witness :
    (0 : ℕ) < 1 ∧
    (pitchCurve [(0 : ℝ)] 1).getD 0 0 =
      (if 0 / 512 * 512 + 1024 ≤ 1 then heldPitch [(0 : ℝ)] 1 (0 / 512) else 0) :=
  ⟨Nat.one_pos, pitchCurve_spec [(0 : ℝ)] 1 0 Nat.one_pos⟩

/-- C4 (counterexample): on a 512-sample all-zero mono input the claim says
index 0 receives the held pitch of step 0 (which is 120: the extractor reports
silence, so the default lastPitch 120 is held), but the frame loop breaks
immediately — the window of 512 remaining samples is shorter than
`FFT_SIZE/2 = 1024` — and the pitch curve keeps its array default 0. -/
theorem pitchCurve_cex :
    (pitchCurve (List.replicate 512 (0 : ℝ)) 512).getD 0 0 ≠
      heldPitch (List.replicate 512 (0 : ℝ)) 512 0 := by
  have h1 : (pitchCurve (List.replicate 512 (0 : ℝ)) 512).getD 0 0 = 0 := by
    have h0 : (120 : ℝ) = lastPitchBefore (List.replicate 512 (0 : ℝ)) 512 0 := rfl
    simp only [pitchCurve]
    rw [h0, pitchCurveGo_getD (List.replicate 512 (0 : ℝ)) 512 (numFrames 512) 0
      (List.replicate 512 0) 0 (List.length_replicate 512 0) (by norm_num)]
    rw [if_neg (by omega)]
    rw [List.getD_eq_getElem?_getD, List.getElem?_replicate]
    norm_num
  have h2 : heldPitch (List.replicate 512 (0 : ℝ)) 512 0 = 120 := by
    have hslice : ((List.replicate 512 (0 : ℝ)).drop (0 * pitchAnalysisStep)).take
        (min (0 * pitchAnalysisStep + FFT_SIZE) 512 - 0 * pitchAnalysisStep)
        = List.replicate 512 (0 : ℝ) := by
      simp only [pitchAnalysisStep, FFT_SIZE]
      rw [Nat.zero_mul, List.drop_zero]
      norm_num [List.take_replicate]
    have hraw : frameRawPitch (List.replicate 512 (0 : ℝ)) 512 0 = 0 := by
      simp only [frameRawPitch]
      rw [hslice]
      have hgate : Real.sqrt (sumSquares (List.replicate 512 (0 : ℝ)) /
          ((List.replicate 512 (0 : ℝ)).length : ℝ)) < 0.02 := by
        rw [sumSquares_replicate_zero]
        norm_num [Real.sqrt_zero]
      simp only [extractPitch]
      rw [if_pos hgate]
    simp only [heldPitch]
    rw [hraw]
    simp [smoothPitch, lastPitchBefore]
  rw [h1, h2]
  norm_num

theorem extractPitch_ones : extractPitch [1, 1, 1, 1, 1] 400 = 400 := by
  have hgate : ¬ Real.sqrt (sumSquares ([1, 1, 1, 1, 1] : List ℝ) /
      (([1, 1, 1, 1, 1] : List ℝ).length : ℝ)) < 0.02 := by
    have h1 : sumSquares ([1, 1, 1, 1, 1] : List ℝ) /
        (([1, 1, 1, 1, 1] : List ℝ).length : ℝ) = 1 := by
      norm_num [sumSquares]
    rw [h1, Real.sqrt_one]
    norm_num
  simp only [extractPitch]
  rw [if_neg hgate]
  norm_num [scanPeriods, corrSum, corrSumAux, List.getD]

/-- C3 (amended): extractPitch returns 0 when the window RMS is below 0.02;
when the RMS gate passes it returns `sampleRate / L`, where `L` is the first
lag attaining the maximal every-other-sample correlation sum over candidate
periods `floor(sr/400) ≤ period < floor(sr/70)`, provided that maximal sum
exceeds the scan's initial sentinel value -1 and that `L` is positive; in the
remaining cases (all candidate sums ≤ -1, an empty candidate range, or a
first-maximal lag of 0) it returns 0 even though the RMS gate passed. -/
theorem extractPitch_spec (buf : List ℝ) (sr : ℕ) :
    (Real.sqrt (sumSquares buf / (buf.length : ℝ)) < 0.02 → extractPitch buf sr = 0) ∧
    (∀ L : ℕ, ¬ Real.sqrt (sumSquares buf / (buf.length : ℝ)) < 0.02 →
      L ∈ List.range' (sr / 400) (sr / 70 - sr / 400) →
      (∀ q ∈ List.range' (sr / 400) (sr / 70 - sr / 400), corrSum buf q ≤ corrSum buf L) →
      (∀ q ∈ List.range' (sr / 400) (sr / 70 - sr / 400),
        corrSum buf q = corrSum buf L → L ≤ q) →
      -1 < corrSum buf L → 0 < L →
      extractPitch buf sr = (sr : ℝ) / (L : ℝ)) := by
  constructor
  · intro hgate
    simp only [extractPitch]
    rw [if_pos hgate]
  · intro L hgate hmem hmax hfirst hsent hpos
    simp only [extractPitch]
    rw [if_neg hgate, scanPeriods_finds buf L _ _ _ _ hmem hmax hfirst hsent]
    dsimp only
    rw [if_pos hpos]

theorem extractPitch_spec_witness :
    ¬ Real.sqrt (sumSquares ([1, 1, 1, 1, 1] : List ℝ) /
        ((([1, 1, 1, 1, 1] : List ℝ).length : ℕ) : ℝ)) < 0.02 ∧
    (1 : ℕ) ∈ List.range' (400 / 400) (400 / 70 - 400 / 400) ∧
    extractPitch [1, 1, 1, 1, 1] 400 = ((400 : ℕ) : ℝ) / ((1 : ℕ) : ℝ) := by
  have hgate : ¬ Real.sqrt (sumSquares ([1, 1, 1, 1, 1] : List ℝ) /
      (([1, 1, 1, 1, 1] : List ℝ).length : ℝ)) < 0.02 := by
    have h1 : sumSquares ([1, 1, 1, 1, 1] : List ℝ) /
        (([1, 1, 1, 1, 1] : List ℝ).length : ℝ) = 1 := by
      norm_num [sumSquares]
    rw [h1, Real.sqrt_one]
    norm_num
  have hmem : (1 : ℕ) ∈ List.range' (400 / 400) (400 / 70 - 400 / 400) :=
    mem_range1.mpr (by norm_num)
  refine ⟨hgate, hmem, ?_⟩
  exact (extractPitch_spec [1, 1, 1, 1, 1] 400).2 1 hgate hmem
    (by
      intro q hq
      rw [mem_range1] at hq
      norm_num at hq
      obtain ⟨hq1, hq2⟩ := hq
      interval_cases q <;> norm_num [corrSum, corrSumAux, List.getD])
    (by
      intro q hq
      rw [mem_range1] at hq
      norm_num at hq
      obtain ⟨hq1, hq2⟩ := hq
      interval_cases q <;> norm_num [corrSum, corrSumAux, List.getD])
    (by norm_num [corrSum, corrSumAux, List.getD])
    (by norm_num)

/-- C3 (counterexample): on the window `[1, 0, 1, -2, -2]` at sample rate 400
the RMS gate passes (RMS = sqrt 2) and the first maximal-correlation lag among
the candidates [1, 2, 3, 4] is lag 2 (sums are -2, -1, -2, -2), so the claim
predicts a return of 400/2 = 200; the code returns 0 instead, because no
candidate sum ever exceeds the initial bestCorrelation sentinel of -1. -/
theorem extractPitch_cex :
    ¬ Real.sqrt (sumSquares ([1, 0, 1, -2, -2] : List ℝ) /
        (([1, 0, 1, -2, -2] : List ℝ).length : ℝ)) < 0.02 ∧
    (∀ q ∈ List.range' (400 / 400) (400 / 70 - 400 / 400),
      corrSum ([1, 0, 1, -2, -2] : List ℝ) q ≤ corrSum ([1, 0, 1, -2, -2] : List ℝ) 2) ∧
    (∀ q ∈ List.range' (400 / 400) (400 / 70 - 400 / 400),
      corrSum ([1, 0, 1, -2, -2] : List ℝ) q = corrSum ([1, 0, 1, -2, -2] : List ℝ) 2 →
        2 ≤ q) ∧
    extractPitch [1, 0, 1, -2, -2] 400 = 0 ∧
    ((400 : ℕ) : ℝ) / ((2 : ℕ) : ℝ) ≠ 0 := by
  have hgate : ¬ Real.sqrt (sumSquares ([1, 0, 1, -2, -2] : List ℝ) /
      (([1, 0, 1, -2, -2] : List ℝ).length : ℝ)) < 0.02 := by
    have h1 : sumSquares ([1, 0, 1, -2, -2] : List ℝ) /
        (([1, 0, 1, -2, -2] : List ℝ).length : ℝ) = 2 := by
      norm_num [sumSquares]
    rw [h1]
    have h2 : (1 : ℝ) ≤ Real.sqrt 2 := Real.one_le_sqrt.mpr (by norm_num)
    push_neg
    linarith
  refine ⟨hgate, ?_, ?_, ?_, by norm_num⟩
  · intro q hq
    rw [mem_range1] at hq
    norm_num at hq
    obtain ⟨hq1, hq2⟩ := hq
    interval_cases q <;> norm_num [corrSum, corrSumAux, List.getD]
  · intro q hq
    rw [mem_range1] at hq
    norm_num at hq
    obtain ⟨hq1, hq2⟩ := hq
    interval_cases q <;> norm_num [corrSum, corrSumAux, List.getD]
  · simp only [extractPitch]
    rw [if_neg hgate]
    norm_num [scanPeriods, corrSum, corrSumAux, List.getD]

/-- C10: every nonzero value returned by extractPitch is `sampleRate / p` for
some period `p` with `floor(sr/400) ≤ p < floor(sr/70)`; consequently it is
strictly greater than 70 Hz, and (whenever `floor(sr/400) ≥ 1`, which holds
for every sample rate of at least 400 where the claimed upper bound is
meaningful) at most `sr / floor(sr/400)`. -/
theorem extractPitch_nonzero_range (buf : List ℝ) (sr : ℕ)
    (h : extractPitch buf sr ≠ 0) :
    ∃ p : ℕ, sr / 400 ≤ p ∧ p < sr / 70 ∧ extractPitch buf sr = (sr : ℝ) / (p : ℝ) ∧
      70 < extractPitch buf sr ∧
      (1 ≤ sr / 400 → extractPitch buf sr ≤ (sr : ℝ) / ((sr / 400 : ℕ) : ℝ)) := by
  by_cases hgate : Real.sqrt (sumSquares buf / (buf.length : ℝ)) < 0.02
  · exfalso
    apply h
    simp only [extractPitch]
    rw [if_pos hgate]
  · have hval : extractPitch buf sr =
        if 0 < (scanPeriods buf (sr / 70 - sr / 400) (sr / 400) (-1, 0)).2 then
          (sr : ℝ) / ((scanPeriods buf (sr / 70 - sr / 400) (sr / 400) (-1, 0)).2 : ℝ)
        else 0 := by
      simp only [extractPitch]
      rw [if_neg hgate]
    by_cases hpos : 0 < (scanPeriods buf (sr / 70 - sr / 400) (sr / 400) (-1, 0)).2
    · rw [if_pos hpos] at hval
      rcases scanPeriods_mem buf (sr / 70 - sr / 400) (sr / 400) (-1) 0 with h0 | hm
      · omega
      · rw [mem_range1] at hm
        set p := (scanPeriods buf (sr / 70 - sr / 400) (sr / 400) (-1, 0)).2 with hp
        have hbounds : sr / 400 ≤ p ∧ p < sr / 70 := by omega
        have h70 : 70 * p < sr := by omega
        have hppos : (0 : ℝ) < (p : ℝ) := by exact_mod_cast hpos
        refine ⟨p, hbounds.1, hbounds.2, hval, ?_, ?_⟩
        · rw [hval, lt_div_iff₀ hppos]
          exact_mod_cast h70
        · intro hmin
          rw [hval]
          have hc : (0 : ℝ) < ((sr / 400 : ℕ) : ℝ) := by exact_mod_cast hmin
          exact div_le_div_of_nonneg_left (by positivity) hc (by exact_mod_cast hbounds.1)
    · exfalso
      apply h
      rw [hval, if_neg hpos]

theorem extractPitch_nonzero_range_witness :
    extractPitch [1, 1, 1, 1, 1] 400 ≠ 0 ∧
    (∃ p : ℕ, 400 / 400 ≤ p ∧ p < 400 / 70 ∧
      extractPitch [1, 1, 1, 1, 1] 400 = ((400 : ℕ) : ℝ) / (p : ℝ) ∧
      70 < extractPitch [1, 1, 1, 1, 1] 400 ∧
      (1 ≤ 400 / 400 →
        extractPitch [1, 1, 1, 1, 1] 400 ≤ ((400 : ℕ) : ℝ) / ((400 / 400 : ℕ) : ℝ))) := by
  have hne : extractPitch [1, 1, 1, 1, 1] 400 ≠ 0 := by
    rw [extractPitch_ones]
    norm_num
  exact ⟨hne, extractPitch_nonzero_range [1, 1, 1, 1, 1] 400 hne⟩

theorem encode_sample_formula_witness :
    (AudioBuffer.mk 44100 1 [[0]]).wellFormed ∧
    ((encodeToBirdsong (AudioBuffer.mk 44100 1 [[0]]) turdus).channels.getD 0 []).getD 0 0 =
      Real.tanh (0.5 *
        (1.0 + (lpfOutputs (mkLowPassFilter turdus.inputLpfCutoff (SAMPLE_RATE : ℝ))
            ((AudioBuffer.mk 44100 1 [[0]]).channels.getD 0 [])).getD 0 0 * 3.0 * 0.8) *
        Real.sin (phaseSum turdus
            (pitchCurve (pitchInputData (AudioBuffer.mk 44100 1 [[0]]))
              (AudioBuffer.mk 44100 1 [[0]]).frames) 0 +
          Real.sin (((0 : ℕ) : ℝ) * 0.001) * 50)) := by
  have hwf : (AudioBuffer.mk 44100 1 [[0]]).wellFormed := by
    intro ch hch
    simp only [List.mem_singleton] at hch
    subst hch
    rfl
  exact ⟨hwf, encode_sample_formula (AudioBuffer.mk 44100 1 [[0]]) turdus 0 0 hwf
    (by simp) (by norm_num)⟩

theorem wav_header_spec_witness :
    (bufferToWavBlob demoBuf).length = 4044 ∧
    (bufferToWavBlob demoBuf).take 4 = [82, 73, 70, 70] ∧
    ((bufferToWavBlob demoBuf).drop 8).take 4 = [87, 65, 86, 69] := by
  have h := wav_header_spec demoBuf
  have hc : demoBuf.channels.length = 2 := rfl
  have hf : demoBuf.frames = 1000 := rfl
  rw [hc, hf] at h
  norm_num at h
  exact h

end Birdsong
